import Mathlib

/-! Verification of the singly-linked list implemented in
`single-linked-list/single-linked-list.h`.

The container is modelled in two complementary ways.

The positional model (`SingleLinkedList`) represents the chain of real nodes
hanging off the sentinel `head_` by the Lean list of their values in forward
order (field `nodes`), and carries the `size_` member separately, exactly as
the C++ class stores both.  An iterator (`NodePtr`) is modelled by what its
`node_` pointer references: `none` is `nullptr`, `some 0` is `&head_` (the
sentinel), and `some (i+1)` is the i-th real node of the chain (0-based).
Operations that the C++ code guards with `assert`, or that would dereference
an invalid pointer (undefined behaviour), return `none`.

The heap model (`Heap`, `HList`) is used for the copy constructor, where node
identity (addresses) matters: a heap is an association list from natural
number addresses to nodes, `new` allocates at a fresh address, and the copy
constructor is translated statement by statement.  This model can state that
the copy consists of freshly allocated nodes disjoint from the source's, so
that writing to the copy's nodes cannot change the source.
-/

/-- Positional model of `SingleLinkedList<Type>` (single-linked-list.h:184-188):
`nodes` is the forward traversal of the real nodes reachable from the sentinel
`head_` via `next_node` links, and `size_` is the separately stored counter. -/
structure SingleLinkedList (α : Type) where
  nodes : List α
  size_ : Nat
deriving DecidableEq, Repr

/-- Positional model of `BasicIterator`: the value of its `node_` pointer.
`none` is `nullptr`; `some 0` is the sentinel `&head_`; `some (i+1)` is the
i-th real node of the chain. -/
abbrev NodePtr := Option Nat

/-- `BasicIterator()` (single-linked-list.h:47,97): `node_` defaults to
`nullptr`. -/
def defaultIterator : NodePtr := none

/-- `BasicIterator::operator==` (single-linked-list.h:242-258): pointer
equality of the two `node_` members. -/
def iterEq (a b : NodePtr) : Bool := a == b

/-- `BasicIterator::operator!=` (single-linked-list.h:248-264): pointer
inequality of the two `node_` members. -/
def iterNe (a b : NodePtr) : Bool := a != b

/-- `GetSize` (single-linked-list.h:325-328): returns the stored `size_`. -/
def GetSize (l : SingleLinkedList α) : Nat := l.size_

/-- `IsEmpty` (single-linked-list.h:330-333): `size_ == 0 ? true : false`.
(Named `IsEmptyList` because Mathlib already declares `IsEmpty`.) -/
def IsEmptyList (l : SingleLinkedList α) : Bool :=
  if l.size_ = 0 then true else false

/-- The `while (head_.next_node != nullptr)` loop of `Clear`
(single-linked-list.h:337-341): repeatedly unlinks and frees the first node
until the chain is empty. -/
def clearLoop : List α → List α
  | [] => []
  | _ :: rest => clearLoop rest

/-- `Clear` (single-linked-list.h:335-343): runs the unlink loop, then sets
`size_ = 0`. -/
def Clear (l : SingleLinkedList α) : SingleLinkedList α :=
  { nodes := clearLoop l.nodes, size_ := 0 }

/-- `PushFront` (single-linked-list.h:345-349): links a new node holding
`value` in front of the chain and increments `size_`. -/
def PushFront (l : SingleLinkedList α) (value : α) : SingleLinkedList α :=
  { nodes := value :: l.nodes, size_ := l.size_ + 1 }

/-- `PopFront` (single-linked-list.h:351-358): `assert(!IsEmpty())` (modelled
as `none` when `size_ = 0`), then unlinks and frees the first node — a
dereference of `head_.next_node`, which is undefined behaviour (`none`) when
the chain is empty — and decrements `size_`. -/
def PopFront (l : SingleLinkedList α) : Option (SingleLinkedList α) :=
  if l.size_ = 0 then none
  else
    match l.nodes with
    | [] => none
    | _ :: rest => some { nodes := rest, size_ := l.size_ - 1 }

/-- `InsertAfter` (single-linked-list.h:360-367): `assert(pos.node_ !=
nullptr)`, then links a new node holding `value` right after `pos` and
increments `size_`; returns an iterator to the inserted node.  A non-null
`pos` is valid when it references the sentinel (`some 0`) or one of the real
nodes (`some (i+1)` with `i < nodes.length`), i.e. when `k ≤ nodes.length`;
any other pointer value is undefined behaviour (`none`). -/
def InsertAfter (l : SingleLinkedList α) (pos : NodePtr) (value : α) :
    Option (SingleLinkedList α × NodePtr) :=
  match pos with
  | none => none
  | some k =>
    if k ≤ l.nodes.length then
      some ({ nodes := l.nodes.take k ++ value :: l.nodes.drop k,
              size_ := l.size_ + 1 },
            some (k + 1))
    else none

/-- `EraseAfter` (single-linked-list.h:369-378): `assert(pos.node_ !=
nullptr)`, then unlinks and frees the node following `pos` — which must exist,
i.e. `k < nodes.length`, otherwise `pos.node_->next_node->next_node` is
undefined behaviour (`none`) — decrements `size_`, and returns an iterator to
the node now following `pos` (null when the erased node was last). -/
def EraseAfter (l : SingleLinkedList α) (pos : NodePtr) :
    Option (SingleLinkedList α × NodePtr) :=
  match pos with
  | none => none
  | some k =>
    if k < l.nodes.length then
      some ({ nodes := l.nodes.take k ++ l.nodes.drop (k + 1),
              size_ := l.size_ - 1 },
            if k + 1 < l.nodes.length then some (k + 1) else none)
    else none

/-- `Swap` (single-linked-list.h:380-384): exchanges `head_.next_node` (the
whole chain) and `size_` of the two lists. -/
def Swap (l other : SingleLinkedList α) :
    SingleLinkedList α × SingleLinkedList α :=
  ({ nodes := other.nodes, size_ := other.size_ },
   { nodes := l.nodes, size_ := l.size_ })

/-- `before_begin` / `cbefore_begin` (single-linked-list.h:386-399): an
iterator whose `node_` is `&head_`, the sentinel. -/
def before_begin (_ : SingleLinkedList α) : NodePtr := some 0

/-- `begin` / `cbegin` (single-linked-list.h:401-404,421-424): an iterator
whose `node_` is `head_.next_node` — `nullptr` exactly when the chain is
empty, otherwise the first real node. -/
def listBegin (l : SingleLinkedList α) : NodePtr :=
  match l.nodes with
  | [] => none
  | _ :: _ => some 1

/-- `end` / `cend` (single-linked-list.h:406-409,426-429): an iterator whose
`node_` is `nullptr`. -/
def listEnd (_ : SingleLinkedList α) : NodePtr := none

/-- The `SingleLinkedList(std::initializer_list<Type>)` constructor
(single-linked-list.h:299-304): iterates the given sequence from `rbegin` to
`rend` (last value toward first), calling `PushFront` on each. -/
def fromInitList (values : List α) : SingleLinkedList α :=
  values.reverse.foldl (fun l v => PushFront l v) { nodes := [], size_ := 0 }

/-- One iteration of the copy-constructor loop (single-linked-list.h:312-314)
in the positional model.  State: `temp`'s chain, `this`'s `size_` counter
(`InsertAfter` is invoked on `this`, so `++size_` hits `this`), and the
position of `temp_it` inside `temp`'s chain.  The body performs the node
surgery of `InsertAfter(temp_it, value)` on `temp`'s chain and stores the
returned iterator (the inserted node) back into `temp_it`. -/
def copyLoopStep (st : List α × Nat × Nat) (value : α) : List α × Nat × Nat :=
  (st.1.take st.2.2 ++ value :: st.1.drop st.2.2, st.2.1 + 1, st.2.2 + 1)

/-- The copy constructor `SingleLinkedList(const SingleLinkedList&)`
(single-linked-list.h:306-318) in the positional model: starting from an
empty `temp` and `temp_it = temp.cbefore_begin()`, run the insertion loop
over `other`'s traversal, then set `temp.size_ = other.size_` and
`Swap(temp)` — after which `this` holds `temp`'s chain and the size just
assigned to `temp`, while `temp` (destroyed on scope exit) holds `this`'s
previously empty chain and discarded counter. -/
def copyCtor (other : SingleLinkedList α) : SingleLinkedList α :=
  let st := other.nodes.foldl copyLoopStep ([], 0, 0)
  { nodes := st.1, size_ := other.size_ }

/-- `operator=` (single-linked-list.h:431-438): copy-and-swap.  (The
`this != &rhs` address check is an identity test the positional model cannot
express; for self-assignment the guarded and unguarded paths produce the same
value, so the model always takes the copy-and-swap path.) -/
def assignOp (_this rhs : SingleLinkedList α) : SingleLinkedList α :=
  let temp := copyCtor rhs
  (Swap _this temp).1

/-- `std::equal(lhs.begin(), lhs.end(), rhs.begin(), rhs.end())` as used by
`operator==` (single-linked-list.h:195-198): the two traversals have the same
length and pairwise equal elements. -/
def listEqual [DecidableEq α] : List α → List α → Bool
  | [], [] => true
  | [], _ :: _ => false
  | _ :: _, [] => false
  | a :: as, b :: bs => if a = b then listEqual as bs else false

/-- `std::lexicographical_compare(lhs.begin(), lhs.end(), rhs.begin(),
rhs.end())` as used by `operator<` (single-linked-list.h:205-208): walk both
ranges; the first strictly smaller element decides; a range that ends first
while the other continues compares less. -/
def lexCompare [LinearOrder α] : List α → List α → Bool
  | _, [] => false
  | [], _ :: _ => true
  | a :: as, b :: bs =>
    if a < b then true else if b < a then false else lexCompare as bs

/-- `operator==` on lists (single-linked-list.h:195-198). -/
def listsEq [DecidableEq α] (lhs rhs : SingleLinkedList α) : Bool :=
  listEqual lhs.nodes rhs.nodes

/-- `operator!=` on lists (single-linked-list.h:200-203): `!(lhs == rhs)`. -/
def listsNe [DecidableEq α] (lhs rhs : SingleLinkedList α) : Bool :=
  !(listsEq lhs rhs)

/-- `operator<` on lists (single-linked-list.h:205-208). -/
def listsLt [LinearOrder α] (lhs rhs : SingleLinkedList α) : Bool :=
  lexCompare lhs.nodes rhs.nodes

/-- `operator>` on lists (single-linked-list.h:210-213): `rhs < lhs`. -/
def listsGt [LinearOrder α] (lhs rhs : SingleLinkedList α) : Bool :=
  listsLt rhs lhs

/-- `operator<=` on lists (single-linked-list.h:215-218): `!(lhs > rhs)`. -/
def listsLe [LinearOrder α] (lhs rhs : SingleLinkedList α) : Bool :=
  !(listsGt lhs rhs)

/-- `operator>=` on lists (single-linked-list.h:220-223): `!(lhs < rhs)`. -/
def listsGe [LinearOrder α] (lhs rhs : SingleLinkedList α) : Bool :=
  !(listsLt lhs rhs)

/-- `PushFront` with an explicit allocation outcome: the C++ body is
`head_.next_node = new Node(value, head_.next_node); ++size_;` — the
allocation is evaluated first, so if `new` throws (`ok = false`) no member
has been touched yet and the exception carries the list unchanged
(`Except.error`). -/
def PushFrontAlloc (ok : Bool) (l : SingleLinkedList α) (value : α) :
    Except (SingleLinkedList α) (SingleLinkedList α) :=
  if ok then Except.ok (PushFront l value) else Except.error l

/-- `InsertAfter` with an explicit allocation outcome: after the
`assert(pos.node_ != nullptr)` and with a valid `pos`, the body is
`pos.node_->next_node = new Node(value, pos.node_->next_node); ++size_;` —
the allocation is evaluated first, so if `new` throws (`ok = false`) no node
or member has been touched yet and the exception carries the list unchanged
(`Except.error`). -/
def InsertAfterAlloc (ok : Bool) (l : SingleLinkedList α) (pos : NodePtr)
    (value : α) :
    Option (Except (SingleLinkedList α) (SingleLinkedList α × NodePtr)) :=
  match pos with
  | none => none
  | some k =>
    if k ≤ l.nodes.length then
      some (if ok then
              Except.ok ({ nodes := l.nodes.take k ++ value :: l.nodes.drop k,
                           size_ := l.size_ + 1 },
                         some (k + 1))
            else Except.error l)
    else none

/-- The stored-size invariant of claim C5: `size_` equals the number of nodes
reachable from the sentinel by `next_node` links, excluding the sentinel —
i.e. the length of the forward traversal. -/
def sizeInv (l : SingleLinkedList α) : Prop := l.size_ = l.nodes.length

/-- Heap-model node: `struct Node` (single-linked-list.h:13-18) — one value
and a `next_node` pointer (`none` is `nullptr`, `some a` points to heap
address `a`). -/
structure HNode (α : Type) where
  value : α
  next_node : Option Nat
deriving DecidableEq, Repr

/-- A heap: an association list from addresses to nodes (later bindings
shadow earlier ones) together with the next fresh address `ctr`. -/
structure Heap (α : Type) where
  mem : List (Nat × HNode α)
  ctr : Nat
deriving DecidableEq, Repr

/-- Read the node stored at address `a` (`none` when `a` is unallocated,
so dereferencing it is undefined behaviour). -/
def Heap.get (h : Heap α) (a : Nat) : Option (HNode α) :=
  List.lookup a h.mem

/-- `new Node(...)`: allocate `n` at the fresh address `ctr`. -/
def Heap.alloc (h : Heap α) (n : HNode α) : Nat × Heap α :=
  (h.ctr, { mem := (h.ctr, n) :: h.mem, ctr := h.ctr + 1 })

/-- Overwrite the node at address `a`. -/
def Heap.write (h : Heap α) (a : Nat) (n : HNode α) : Heap α :=
  { mem := (a, n) :: h.mem, ctr := h.ctr }

/-- `delete` / end of storage duration: remove every binding of address
`a`. -/
def Heap.free (h : Heap α) (a : Nat) : Heap α :=
  { mem := h.mem.filter (fun p => p.1 != a), ctr := h.ctr }

/-- Heap well-formedness: every allocated address is below the allocation
counter, so fresh addresses are genuinely fresh. -/
def Heap.wf (h : Heap α) : Prop := ∀ p ∈ h.mem, p.1 < h.ctr

/-- Heap-model list object: the address of its embedded sentinel `head_` and
its `size_` member. -/
structure HList where
  sentinel : Nat
  size_ : Nat
deriving DecidableEq, Repr

/-- The iterator walk `begin(); != end(); ++` over a chain starting at
pointer `cur`, collecting each visited address with the node found there.
`fuel` bounds the number of steps; a `none` result is a failed lookup or an
exhausted fuel (a cyclic or dangling chain). -/
def chainNodes (h : Heap α) : Nat → Option Nat → Option (List (Nat × HNode α))
  | _, none => some []
  | 0, some _ => none
  | fuel + 1, some a =>
    match h.get a with
    | none => none
    | some n =>
      match chainNodes h fuel n.next_node with
      | none => none
      | some rest => some ((a, n) :: rest)

/-- The addresses of the chain starting at `cur`. -/
def chainAddrs (h : Heap α) (fuel : Nat) (cur : Option Nat) :
    Option (List Nat) :=
  (chainNodes h fuel cur).map (List.map Prod.fst)

/-- The values of the chain starting at `cur` — the forward traversal. -/
def chainVals (h : Heap α) (fuel : Nat) (cur : Option Nat) :
    Option (List α) :=
  (chainNodes h fuel cur).map (List.map (fun p => p.2.value))

/-- Heap-model `InsertAfter` (single-linked-list.h:360-367) as invoked inside
the copy constructor: `assert(pos.node_ != nullptr)`; read `*pos.node_`
(undefined behaviour if unallocated); `new Node(value, pos.node_->next_node)`;
relink `pos.node_->next_node` to the new node; `++size_` — on `this`, the
object the method is called on, whose counter is threaded as `thisSize`.
Returns the updated heap, the updated counter, and the new node's address
(the returned iterator). -/
def InsertAfterH (h : Heap α) (thisSize : Nat) (pos : Option Nat) (value : α) :
    Option (Heap α × Nat × Nat) :=
  match pos with
  | none => none
  | some p =>
    match h.get p with
    | none => none
    | some pn =>
      let an := h.alloc { value := value, next_node := pn.next_node }
      some (an.2.write p { value := pn.value, next_node := some an.1 },
            thisSize + 1, an.1)

/-- The copy-constructor loop `for (const auto& value : other) { temp_it =
InsertAfter(temp_it, value); }` (single-linked-list.h:312-314) in the heap
model: `cur` walks `other`'s chain reading each value from the evolving heap,
`pos` is `temp_it.node_` (always non-null during the loop), and `s` is
`this->size_`, incremented by each `InsertAfter`.  `fuel` bounds the walk. -/
def copyLoopH : Nat → Heap α → Option Nat → Nat → Nat →
    Option (Heap α × Nat × Nat)
  | _, h, none, pos, s => some (h, pos, s)
  | 0, _, some _, _, _ => none
  | fuel + 1, h, some c, pos, s =>
    match h.get c with
    | none => none
    | some cn =>
      match InsertAfterH h s (some pos) cn.value with
      | none => none
      | some (h1, s1, na) => copyLoopH fuel h1 cn.next_node na s1

/-- The copy constructor `SingleLinkedList(const SingleLinkedList&)`
(single-linked-list.h:306-318) in the heap model, statement by statement:
construct `this` (a fresh default sentinel, `size_ = 0`, satisfying the
opening assert); construct the local `temp` likewise; set
`temp_it = temp.cbefore_begin()` (the address of `temp`'s sentinel); run the
insertion loop over `other`'s chain; `temp.size_ = other.size_`;
`Swap(temp)` exchanges the two sentinels' `next_node` and the two `size_`
members, so `this` ends with `temp`'s chain and the size just assigned;
finally `temp` is destroyed — its `Clear` walks its post-swap chain, which is
`this`'s original empty chain, freeing nothing — and its sentinel's storage
ends. -/
def copyCtorH [Inhabited α] (fuel : Nat) (h : Heap α) (other : HList) :
    Option (Heap α × HList) :=
  match h.get other.sentinel with
  | none => none
  | some osent =>
    let aThis := h.alloc { value := default, next_node := none }
    let aTemp := aThis.2.alloc { value := default, next_node := none }
    match copyLoopH fuel aTemp.2 osent.next_node aTemp.1 0 with
    | none => none
    | some (h3, _, _) =>
      match h3.get aThis.1, h3.get aTemp.1 with
      | some nThis, some nTemp =>
        let h4 := (h3.write aThis.1
                    { value := nThis.value, next_node := nTemp.next_node }).write
                  aTemp.1 { value := nTemp.value, next_node := nThis.next_node }
        some (h4.free aTemp.1, { sentinel := aThis.1, size_ := other.size_ })
      | _, _ => none

lemma clearLoop_eq_nil : ∀ l : List α, clearLoop l = []
  | [] => rfl
  | _ :: t => clearLoop_eq_nil t

lemma foldl_PushFront (vs : List α) (l : SingleLinkedList α) :
    vs.foldl (fun l v => PushFront l v) l =
      { nodes := vs.reverse ++ l.nodes, size_ := l.size_ + vs.length } := by
  induction vs generalizing l with
  | nil => simp
  | cons a t ih =>
    rw [List.foldl_cons, ih]
    simp only [PushFront, List.reverse_cons, List.append_assoc,
      List.cons_append, List.nil_append, List.length_cons,
      SingleLinkedList.mk.injEq]
    exact ⟨trivial, by omega⟩

lemma listEqual_iff_eq [DecidableEq α] :
    ∀ as bs : List α, listEqual as bs = true ↔ as = bs
  | [], [] => by simp [listEqual]
  | [], _ :: _ => by simp [listEqual]
  | _ :: _, [] => by simp [listEqual]
  | a :: as, b :: bs => by
    simp only [listEqual]
    by_cases h : a = b
    · simp [h, listEqual_iff_eq as bs]
    · simp [h]

lemma lexCompare_irrefl [LinearOrder α] : ∀ as : List α, lexCompare as as = false
  | [] => rfl
  | a :: as => by simp [lexCompare, lt_irrefl, lexCompare_irrefl as]

lemma lexCompare_asymm [LinearOrder α] :
    ∀ as bs : List α, lexCompare as bs = true → lexCompare bs as = false
  | [], [] => by simp [lexCompare]
  | [], _ :: _ => by simp [lexCompare]
  | _ :: _, [] => by simp [lexCompare]
  | a :: as, b :: bs => by
    simp only [lexCompare]
    rcases lt_trichotomy a b with h | h | h
    · simp [h, not_lt.mpr (le_of_lt h)]
    · subst h
      simp only [lt_irrefl, if_false]
      exact lexCompare_asymm as bs
    · simp [h, not_lt.mpr (le_of_lt h)]

lemma lexCompare_eq_of_both_false [LinearOrder α] :
    ∀ as bs : List α, lexCompare as bs = false → lexCompare bs as = false →
      as = bs
  | [], [] => fun _ _ => rfl
  | [], _ :: _ => by simp [lexCompare]
  | _ :: _, [] => by simp [lexCompare]
  | a :: as, b :: bs => by
    simp only [lexCompare]
    rcases lt_trichotomy a b with h | h | h
    · simp [h]
    · subst h
      simp only [lt_irrefl, if_false]
      intro h1 h2
      rw [lexCompare_eq_of_both_false as bs h1 h2]
    · simp [h, not_lt.mpr (le_of_lt h)]

/-- C4: constructing a list from the value sequence `vs` (by front-inserting
from the last value toward the first) yields a list whose forward traversal
is exactly `vs` and whose size is `vs.length`. -/
theorem init_list_ctor_builds_in_order (α : Type) (vs : List α) :
    (fromInitList vs).nodes = vs ∧ GetSize (fromInitList vs) = vs.length := by
  rw [fromInitList, foldl_PushFront]
  simp [GetSize]

/-- C6: `InsertAfter` at the before-begin iterator produces exactly the state
and effect of `PushFront`: the value is prepended, the size grows by one, and
the returned iterator references the new first node. -/
theorem insert_after_before_begin_eq_push_front (α : Type)
    (l : SingleLinkedList α) (v : α) :
    InsertAfter l (before_begin l) v = some (PushFront l v, some 1) := by
  simp [InsertAfter, before_begin, PushFront]

/-- C8: after `Clear`, the list is empty — `IsEmpty` holds, the size is 0,
and no real node remains reachable from the sentinel — for any prior
state. -/
theorem clear_resets_to_empty (α : Type) (l : SingleLinkedList α) :
    IsEmptyList (Clear l) = true ∧ GetSize (Clear l) = 0 ∧
      (Clear l).nodes = [] := by
  refine ⟨rfl, rfl, ?_⟩
  simp [Clear, clearLoop_eq_nil]

/-- C9: a default-constructed iterator holds a null `node_`, hence compares
equal to `end()`/`cend()` of every list, and compares unequal to `begin()` of
every non-empty list and to every before-begin iterator. -/
theorem default_iterator_eq_end (α : Type) (l : SingleLinkedList α) :
    iterEq defaultIterator (listEnd l) = true ∧
      (l.nodes ≠ [] → iterNe defaultIterator (listBegin l) = true) ∧
      iterNe defaultIterator (before_begin l) = true := by
  refine ⟨rfl, ?_, rfl⟩
  intro h
  cases hn : l.nodes with
  | nil => exact absurd hn h
  | cons a t => simp [listBegin, hn, iterNe, defaultIterator]

/-- Witness for C9 at a concrete non-empty list. -/
theorem default_iterator_eq_end_witness :
    iterNe defaultIterator
      (listBegin ({ nodes := [3], size_ := 1 } : SingleLinkedList Int)) =
      true :=
  (default_iterator_eq_end Int { nodes := [3], size_ := 1 }).2.1 (by decide)

/-- C2: `operator==` returns true iff the two lists have the same number of
elements and pairwise equal elements in forward-traversal order, and
`operator!=` is its negation. -/
theorem operator_eq_iff_same_elems (α : Type) [DecidableEq α]
    (A B : SingleLinkedList α) :
    (listsEq A B = true ↔
      (A.nodes.length = B.nodes.length ∧
        ∀ i, A.nodes.get? i = B.nodes.get? i)) ∧
    listsNe A B = !(listsEq A B) := by
  refine ⟨?_, rfl⟩
  rw [listsEq, listEqual_iff_eq]
  constructor
  · intro h
    rw [h]
    exact ⟨rfl, fun i => rfl⟩
  · intro h
    exact List.ext h.2

/-- C3: the ordering operators implement lexicographic comparison — for all
lists exactly one of `A < B`, `A == B`, `B < A` holds, the derived operators
satisfy `A > B = B < A`, `A <= B = !(B < A)`, `A >= B = !(A < B)` — and on
the concrete example `[1,2,3] < [1,2,3,4]` (a strict prefix compares
less). -/
theorem ordering_is_lexicographic_trichotomy :
    (∀ (α : Type) [LinearOrder α] [DecidableEq α]
      (A B : SingleLinkedList α),
      ((listsLt A B = true ∧ listsEq A B = false ∧ listsLt B A = false) ∨
       (listsLt A B = false ∧ listsEq A B = true ∧ listsLt B A = false) ∨
       (listsLt A B = false ∧ listsEq A B = false ∧ listsLt B A = true)) ∧
      listsGt A B = listsLt B A ∧
      listsLe A B = !(listsLt B A) ∧
      listsGe A B = !(listsLt A B)) ∧
    listsLt ({ nodes := [1, 2, 3], size_ := 3 } : SingleLinkedList Int)
      { nodes := [1, 2, 3, 4], size_ := 4 } = true := by
  refine ⟨?_, by decide⟩
  intro α _ _ A B
  refine ⟨?_, rfl, rfl, rfl⟩
  by_cases heq : A.nodes = B.nodes
  · refine Or.inr (Or.inl ⟨?_, ?_, ?_⟩)
    · rw [listsLt, heq, lexCompare_irrefl]
    · rw [listsEq, listEqual_iff_eq]
      exact heq
    · rw [listsLt, heq, lexCompare_irrefl]
  · have hne : listsEq A B = false := by
      rw [listsEq]
      cases h : listEqual A.nodes B.nodes with
      | false => rfl
      | true => exact absurd ((listEqual_iff_eq _ _).mp h) heq
    cases hlt : listsLt A B with
    | true =>
      exact Or.inl ⟨rfl, hne, lexCompare_asymm _ _ hlt⟩
    | false =>
      refine Or.inr (Or.inr ⟨rfl, hne, ?_⟩)
      cases hba : listsLt B A with
      | true => rfl
      | false =>
        exact absurd (lexCompare_eq_of_both_false _ _ hlt hba) heq

lemma foldl_copyLoopStep :
    ∀ (vs t : List α) (s : Nat),
      vs.foldl copyLoopStep (t, s, t.length) =
        (t ++ vs, s + vs.length, t.length + vs.length) := by
  intro vs
  induction vs with
  | nil => intro t s; simp
  | cons v rest ih =>
    intro t s
    rw [List.foldl_cons]
    have hstep : copyLoopStep (t, s, t.length) v =
        (t ++ [v], s + 1, (t ++ [v]).length) := by
      simp [copyLoopStep, List.take_length, List.drop_length]
    rw [hstep, ih]
    simp only [List.append_assoc, List.singleton_append, List.length_append,
      List.length_cons, List.length_nil, Prod.mk.injEq]
    exact ⟨trivial, by omega, by omega⟩

lemma copyCtor_spec (other : SingleLinkedList α) :
    copyCtor other = { nodes := other.nodes, size_ := other.size_ } := by
  have h := foldl_copyLoopStep other.nodes ([] : List α) 0
  simp only [List.length_nil, List.nil_append, Nat.zero_add] at h
  simp only [copyCtor, h]

/-- C5: after every completed public operation — default construction,
sequence construction, copy construction, assignment, `PushFront`,
`PopFront`, `InsertAfter`, `EraseAfter`, `Clear`, `Swap` — the stored `size_`
equals the number of nodes reachable from the sentinel by `next_node` links,
excluding the sentinel (the length of the forward traversal). -/
theorem stored_size_matches_chain_length (α : Type)
    (l r : SingleLinkedList α) (v : α) (pos : NodePtr) (vs : List α) :
    sizeInv ({ nodes := [], size_ := 0 } : SingleLinkedList α) ∧
    sizeInv (fromInitList vs) ∧
    (sizeInv l → sizeInv (copyCtor l)) ∧
    (sizeInv r → sizeInv (assignOp l r)) ∧
    (sizeInv l → sizeInv (PushFront l v)) ∧
    (sizeInv l → ∀ l2, PopFront l = some l2 → sizeInv l2) ∧
    (sizeInv l → ∀ l2 it, InsertAfter l pos v = some (l2, it) → sizeInv l2) ∧
    (sizeInv l → ∀ l2 it, EraseAfter l pos = some (l2, it) → sizeInv l2) ∧
    sizeInv (Clear l) ∧
    (sizeInv l → sizeInv r → sizeInv (Swap l r).1 ∧ sizeInv (Swap l r).2) := by
  refine ⟨rfl, ?_, ?_, ?_, ?_, ?_, ?_, ?_, ?_, ?_⟩
  · rw [sizeInv, fromInitList, foldl_PushFront]
    simp
  · intro h
    rw [sizeInv] at h ⊢
    rw [copyCtor_spec]
    exact h
  · intro h
    rw [sizeInv] at h ⊢
    rw [assignOp, copyCtor_spec]
    exact h
  · intro h
    rw [sizeInv] at h ⊢
    simp [PushFront, h]
  · intro h l2 hpop
    rw [PopFront] at hpop
    split at hpop
    · exact absurd hpop (by simp)
    · cases hn : l.nodes with
      | nil => rw [hn] at hpop; simp at hpop
      | cons a t =>
        rw [hn] at hpop
        simp only [Option.some.injEq] at hpop
        rw [sizeInv] at h ⊢
        rw [hn] at h
        rw [← hpop]
        simp at h ⊢
        omega
  · intro h l2 it hins
    cases pos with
    | none => simp [InsertAfter] at hins
    | some k =>
      rw [InsertAfter] at hins
      split at hins
      · next hk =>
        simp only [Option.some.injEq, Prod.mk.injEq] at hins
        rw [sizeInv] at h ⊢
        rw [← hins.1]
        simp [List.length_take, List.length_drop]
        omega
      · exact absurd hins (by simp)
  · intro h l2 it hera
    cases pos with
    | none => simp [EraseAfter] at hera
    | some k =>
      rw [EraseAfter] at hera
      split at hera
      · next hk =>
        simp only [Option.some.injEq, Prod.mk.injEq] at hera
        rw [sizeInv] at h ⊢
        rw [← hera.1]
        simp [List.length_take, List.length_drop]
        omega
      · exact absurd hera (by simp)
  · rw [sizeInv, Clear]
    simp [clearLoop_eq_nil]
  · intro h1 h2
    rw [sizeInv] at h1 h2
    exact ⟨h2, h1⟩

/-- Witness for C5 at concrete lists. -/
theorem stored_size_matches_chain_length_witness :
    sizeInv (PushFront ({ nodes := [7], size_ := 1 } : SingleLinkedList Int) 9) ∧
    sizeInv (fromInitList ([4, 5] : List Int)) :=
  ⟨(stored_size_matches_chain_length Int { nodes := [7], size_ := 1 }
      { nodes := [1, 2], size_ := 2 } 9 (some 1) [4, 5]).2.2.2.2.1 rfl,
   (stored_size_matches_chain_length Int { nodes := [7], size_ := 1 }
      { nodes := [1, 2], size_ := 2 } 9 (some 1) [4, 5]).2.1⟩

/-- C7: `PushFront` and `InsertAfter` perform a single allocation before any
mutation, so on allocation failure the error propagates with the list exactly
as before the call, and on success the operation fully completes. -/
theorem single_alloc_strong_guarantee (α : Type) (l : SingleLinkedList α)
    (v : α) (pos : NodePtr) :
    PushFrontAlloc false l v = Except.error l ∧
    PushFrontAlloc true l v = Except.ok (PushFront l v) ∧
    (∀ e, InsertAfterAlloc false l pos v = some e → e = Except.error l) ∧
    (∀ r, InsertAfter l pos v = some r →
      InsertAfterAlloc true l pos v = some (Except.ok r)) := by
  refine ⟨rfl, rfl, ?_, ?_⟩
  · intro e he
    cases pos with
    | none => simp [InsertAfterAlloc] at he
    | some k =>
      rw [InsertAfterAlloc] at he
      split at he
      · simp only [if_neg Bool.false_ne_true, Bool.false_eq_true, if_false,
          Option.some.injEq] at he
        exact he.symm
      · exact absurd he (by simp)
  · intro r hr
    cases pos with
    | none => simp [InsertAfter] at hr
    | some k =>
      rw [InsertAfter] at hr
      rw [InsertAfterAlloc]
      split at hr
      · next hk =>
        rw [if_pos hk]
        simp only [Option.some.injEq] at hr
        simp [hr]
      · exact absurd hr (by simp)

/-- Witness for C7: a successful insertion at the sentinel of `[5]`, and the
failing allocation leaving the list unchanged. -/
theorem single_alloc_strong_guarantee_witness :
    InsertAfterAlloc true ({ nodes := [5], size_ := 1 } : SingleLinkedList Int)
        (some 0) 7 =
      some (Except.ok ({ nodes := [7, 5], size_ := 2 }, some 1)) :=
  (single_alloc_strong_guarantee Int { nodes := [5], size_ := 1 } 7
    (some 0)).2.2.2 ({ nodes := [7, 5], size_ := 2 }, some 1) (by decide)

/-- C10: on a non-empty list, `EraseAfter` at the before-begin iterator has
exactly the effect of `PopFront`: the first element is removed, the size
drops by one (the resulting states coincide), and the returned iterator
references the new first element, or is `end()` when the list had one
element — in both cases it equals `begin()` of the resulting list. -/
theorem erase_after_before_begin_eq_pop_front (α : Type)
    (l : SingleLinkedList α) (h1 : l.size_ ≠ 0) (h2 : l.nodes ≠ []) :
    ∃ l2, EraseAfter l (before_begin l) = some (l2, listBegin l2) ∧
      PopFront l = some l2 := by
  cases hn : l.nodes with
  | nil => exact absurd hn h2
  | cons a t =>
    refine ⟨{ nodes := t, size_ := l.size_ - 1 }, ?_, ?_⟩
    · simp only [before_begin, EraseAfter, hn, List.length_cons]
      rw [if_pos (by omega)]
      simp only [List.take_zero, List.drop_succ_cons, List.drop_zero,
        List.nil_append, Option.some.injEq, Prod.mk.injEq, true_and]
      cases t with
      | nil => simp [listBegin]
      | cons b t2 => simp [listBegin]
    · rw [PopFront, if_neg h1, hn]

/-- Witness for C10 at the concrete list `[5, 6]`. -/
theorem erase_after_before_begin_eq_pop_front_witness :
    ∃ l2, EraseAfter ({ nodes := [5, 6], size_ := 2 } : SingleLinkedList Int)
        (before_begin { nodes := [5, 6], size_ := 2 }) =
        some (l2, listBegin l2) ∧
      PopFront ({ nodes := [5, 6], size_ := 2 } : SingleLinkedList Int) =
        some l2 :=
  erase_after_before_begin_eq_pop_front Int { nodes := [5, 6], size_ := 2 }
    (by decide) (by decide)

lemma listEqual_refl [DecidableEq α] : ∀ xs : List α, listEqual xs xs = true
  | [] => rfl
  | a :: xs => by simp [listEqual, listEqual_refl xs]


lemma Heap.get_write (h : Heap α) (a x : Nat) (n : HNode α) :
    (h.write a n).get x = if x = a then some n else h.get x := by
  by_cases hx : x = a
  · have hb : (x == a) = true := beq_iff_eq.mpr hx
    simp [Heap.write, Heap.get, List.lookup, hb, hx]
  · have hb : (x == a) = false := beq_eq_false_iff_ne.mpr hx
    simp [Heap.write, Heap.get, List.lookup, hb, hx]

lemma Heap.get_alloc (h : Heap α) (n : HNode α) (x : Nat) :
    (h.alloc n).2.get x = if x = h.ctr then some n else h.get x := by
  by_cases hx : x = h.ctr
  · have hb : (x == h.ctr) = true := beq_iff_eq.mpr hx
    simp [Heap.alloc, Heap.get, List.lookup, hb, hx]
  · have hb : (x == h.ctr) = false := beq_eq_false_iff_ne.mpr hx
    simp [Heap.alloc, Heap.get, List.lookup, hb, hx]

lemma lookup_filter_ne :
    ∀ (mem : List (Nat × HNode α)) (a x : Nat),
      List.lookup x (mem.filter (fun p => p.1 != a)) =
        if x = a then none else List.lookup x mem := by
  intro mem
  induction mem with
  | nil => intro a x; by_cases hx : x = a <;> simp [hx]
  | cons p rest ih =>
    intro a x
    by_cases hk : p.1 = a
    · rw [List.filter_cons_of_neg (by simp [hk])]
      rw [ih]
      by_cases hx : x = a
      · simp [hx]
      · have hb : (x == p.1) = false := beq_eq_false_iff_ne.mpr (by omega)
        simp [hx, List.lookup, hb]
    · rw [List.filter_cons_of_pos (by simp [hk])]
      by_cases hx : x = p.1
      · have hb : (x == p.1) = true := beq_iff_eq.mpr hx
        have hxa : ¬ x = a := by omega
        simp [List.lookup, hb, hxa]
      · have hb : (x == p.1) = false := beq_eq_false_iff_ne.mpr hx
        simp only [List.lookup, hb]
        exact ih a x

lemma Heap.get_free (h : Heap α) (a x : Nat) :
    (h.free a).get x = if x = a then none else h.get x := by
  rw [Heap.free, Heap.get]
  exact lookup_filter_ne h.mem a x

lemma lookup_some_mem :
    ∀ (mem : List (Nat × HNode α)) (a : Nat) (n : HNode α),
      List.lookup a mem = some n → (a, n) ∈ mem := by
  intro mem
  induction mem with
  | nil => intro a n hn; simp [List.lookup] at hn
  | cons p rest ih =>
    intro a n hn
    by_cases ha : a = p.1
    · have hb : (a == p.1) = true := beq_iff_eq.mpr ha
      simp only [List.lookup, hb] at hn
      simp only [Option.some.injEq] at hn
      rw [ha, ← hn]
      exact List.mem_cons_self _ _
    · have hb : (a == p.1) = false := beq_eq_false_iff_ne.mpr ha
      simp only [List.lookup, hb] at hn
      exact List.mem_cons_of_mem _ (ih a n hn)

lemma Heap.lt_ctr_of_get (h : Heap α) (a : Nat) (n : HNode α)
    (hwf : h.wf) (hget : h.get a = some n) : a < h.ctr :=
  hwf (a, n) (lookup_some_mem h.mem a n hget)

lemma Heap.wf_alloc (h : Heap α) (n : HNode α) (hwf : h.wf) :
    (h.alloc n).2.wf := by
  intro p hp
  rcases List.mem_cons.mp hp with hp | hp
  · rw [hp]
    exact Nat.lt_succ_self _
  · exact Nat.lt_succ_of_lt (hwf p hp)

lemma Heap.wf_write (h : Heap α) (a : Nat) (n : HNode α)
    (hwf : h.wf) (ha : a < h.ctr) : (h.write a n).wf := by
  intro p hp
  rcases List.mem_cons.mp hp with hp | hp
  · rw [hp]
    exact ha
  · exact hwf p hp

lemma chainNodes_frame (h h2 : Heap α) :
    ∀ (fuel : Nat) (cur : Option Nat) (ns : List (Nat × HNode α)),
      chainNodes h fuel cur = some ns →
      (∀ p ∈ ns, h2.get p.1 = h.get p.1) →
      chainNodes h2 fuel cur = some ns := by
  intro fuel
  induction fuel with
  | zero =>
    intro cur ns hc hag
    cases cur with
    | none => exact hc
    | some a => simp [chainNodes] at hc
  | succ f ih =>
    intro cur ns hc hag
    cases cur with
    | none => exact hc
    | some a =>
      rw [chainNodes] at hc ⊢
      cases hga : h.get a with
      | none => simp [hga] at hc
      | some n =>
        simp only [hga] at hc
        cases hrest : chainNodes h f n.next_node with
        | none => simp [hrest] at hc
        | some rest =>
          simp only [hrest, Option.some.injEq] at hc
          have hmem : (a, n) ∈ ns := by rw [← hc]; exact List.mem_cons_self _ _
          have h2a : h2.get a = some n := by rw [hag (a, n) hmem]; exact hga
          have h2rest : chainNodes h2 f n.next_node = some rest :=
            ih n.next_node rest hrest
              (fun p hp => hag p (by rw [← hc]; exact List.mem_cons_of_mem _ hp))
          simp only [h2a, h2rest]
          rw [hc]

lemma chainNodes_fuel_mono (h : Heap α) :
    ∀ (f f2 : Nat) (cur : Option Nat) (ns : List (Nat × HNode α)),
      f ≤ f2 → chainNodes h f cur = some ns → chainNodes h f2 cur = some ns := by
  intro f
  induction f with
  | zero =>
    intro f2 cur ns _ hc
    cases cur with
    | none =>
      cases f2 with
      | zero => exact hc
      | succ g => simp [chainNodes] at hc ⊢; exact hc
    | some a => simp [chainNodes] at hc
  | succ f ih =>
    intro f2 cur ns hle hc
    cases cur with
    | none =>
      cases f2 with
      | zero => simp [chainNodes] at hc ⊢; exact hc
      | succ g => simp [chainNodes] at hc ⊢; exact hc
    | some a =>
      cases f2 with
      | zero => omega
      | succ g =>
        rw [chainNodes] at hc ⊢
        cases hga : h.get a with
        | none => simp [hga] at hc
        | some n =>
          simp only [hga] at hc ⊢
          cases hrest : chainNodes h f n.next_node with
          | none => simp [hrest] at hc
          | some rest =>
            simp only [hrest] at hc
            simp only [ih g n.next_node rest (by omega) hrest]
            exact hc

lemma chainNodes_length_le (h : Heap α) :
    ∀ (f : Nat) (cur : Option Nat) (ns : List (Nat × HNode α)),
      chainNodes h f cur = some ns → ns.length ≤ f := by
  intro f
  induction f with
  | zero =>
    intro cur ns hc
    cases cur with
    | none => simp [chainNodes] at hc; simp [hc]
    | some a => simp [chainNodes] at hc
  | succ f ih =>
    intro cur ns hc
    cases cur with
    | none => simp [chainNodes] at hc; simp [hc]
    | some a =>
      rw [chainNodes] at hc
      cases hga : h.get a with
      | none => simp [hga] at hc
      | some n =>
        simp only [hga] at hc
        cases hrest : chainNodes h f n.next_node with
        | none => simp [hrest] at hc
        | some rest =>
          simp only [hrest, Option.some.injEq] at hc
          rw [← hc]
          simp only [List.length_cons]
          exact Nat.succ_le_succ (ih n.next_node rest hrest)

lemma chainNodes_addrs_lt (h : Heap α) (hwf : h.wf) :
    ∀ (f : Nat) (cur : Option Nat) (ns : List (Nat × HNode α)),
      chainNodes h f cur = some ns → ∀ p ∈ ns, p.1 < h.ctr := by
  intro f
  induction f with
  | zero =>
    intro cur ns hc p hp
    cases cur with
    | none => simp [chainNodes] at hc; rw [hc] at hp; simp at hp
    | some a => simp [chainNodes] at hc
  | succ f ih =>
    intro cur ns hc p hp
    cases cur with
    | none => simp [chainNodes] at hc; rw [hc] at hp; simp at hp
    | some a =>
      rw [chainNodes] at hc
      cases hga : h.get a with
      | none => simp [hga] at hc
      | some n =>
        simp only [hga] at hc
        cases hrest : chainNodes h f n.next_node with
        | none => simp [hrest] at hc
        | some rest =>
          simp only [hrest, Option.some.injEq] at hc
          rw [← hc] at hp
          rcases List.mem_cons.mp hp with hp | hp
          · rw [hp]
            exact h.lt_ctr_of_get a n hwf hga
          · exact ih n.next_node rest hrest p hp

lemma chainNodes_none (h : Heap α) (f : Nat) :
    chainNodes h f none = some [] := by
  cases f <;> rfl

lemma copyLoopH_none (h : Heap α) (fuel pos s : Nat) :
    copyLoopH fuel h none pos s = some (h, pos, s) := by
  cases fuel <;> rfl

lemma copyLoopH_cons (h : Heap α) (f : Nat) (c pos s : Nat) (cn pn : HNode α)
    (hgc : h.get c = some cn) (hgp : h.get pos = some pn) :
    copyLoopH (f + 1) h (some c) pos s =
      copyLoopH f
        ((h.alloc { value := cn.value, next_node := pn.next_node }).2.write pos
          { value := pn.value, next_node := some h.ctr })
        cn.next_node h.ctr (s + 1) := by
  simp only [copyLoopH, hgc, InsertAfterH, hgp]
  rfl

/-- Invariant of the copy-constructor loop: running it over a chain `ns`
(whose addresses lie below `N`) from a tail node `pos` (at or above `N`, with
no successor) terminates, increments `this->size_` once per chain node,
touches no address other than `pos` and fresh ones, and leaves hanging off
`pos` a chain of freshly allocated nodes carrying exactly the values of
`ns` in order. -/
lemma copyLoopH_spec :
    ∀ (fuel : Nat) (h : Heap α) (cur : Option Nat) (pos s N : Nat)
      (ns : List (Nat × HNode α)) (pn : HNode α),
      Heap.wf h →
      chainNodes h fuel cur = some ns →
      (∀ p ∈ ns, p.1 < N) →
      N ≤ pos → pos < h.ctr →
      h.get pos = some pn → pn.next_node = none →
      ∃ h2 pos2 tn ts,
        copyLoopH fuel h cur pos s = some (h2, pos2, s + ns.length) ∧
        Heap.wf h2 ∧ h.ctr ≤ h2.ctr ∧
        (∀ a, a < h.ctr → a ≠ pos → h2.get a = h.get a) ∧
        h2.get pos = some tn ∧ tn.value = pn.value ∧
        chainNodes h2 ns.length tn.next_node = some ts ∧
        ts.map (fun p => p.2.value) = ns.map (fun p => p.2.value) ∧
        (∀ p ∈ ts, h.ctr ≤ p.1 ∧ p.1 < h2.ctr) := by
  intro fuel
  induction fuel with
  | zero =>
    intro h cur pos s N ns pn hwf hc hlt hNp hpc hgp hnn
    cases cur with
    | none =>
      rw [chainNodes_none, Option.some.injEq] at hc
      subst hc
      refine ⟨h, pos, pn, [], ?_, hwf, le_refl _, fun a _ _ => rfl, hgp, rfl,
        ?_, rfl, by simp⟩
      · rw [copyLoopH_none]
        simp
      · rw [hnn]
        exact chainNodes_none h _
    | some a => simp [chainNodes] at hc
  | succ f ih =>
    intro h cur pos s N ns pn hwf hc hlt hNp hpc hgp hnn
    cases cur with
    | none =>
      rw [chainNodes_none, Option.some.injEq] at hc
      subst hc
      refine ⟨h, pos, pn, [], ?_, hwf, le_refl _, fun a _ _ => rfl, hgp, rfl,
        ?_, rfl, by simp⟩
      · rw [copyLoopH_none]
        simp
      · rw [hnn]
        exact chainNodes_none h _
    | some c =>
      rw [chainNodes] at hc
      cases hgc : h.get c with
      | none => simp [hgc] at hc
      | some cn =>
        simp only [hgc] at hc
        cases hrest : chainNodes h f cn.next_node with
        | none => simp [hrest] at hc
        | some restNs =>
          simp only [hrest, Option.some.injEq] at hc
          subst hc
          have hstep := copyLoopH_cons h f c pos s cn pn hgc hgp
          set h1 : Heap α :=
            (h.alloc { value := cn.value, next_node := pn.next_node }).2.write
              pos { value := pn.value, next_node := some h.ctr } with hh1
          have h1ctr : h1.ctr = h.ctr + 1 := by rw [hh1]; rfl
          have hget1 : ∀ x, h1.get x =
              if x = pos then
                some { value := pn.value, next_node := some h.ctr }
              else if x = h.ctr then
                some { value := cn.value, next_node := pn.next_node }
              else h.get x := by
            intro x
            rw [hh1, Heap.get_write, Heap.get_alloc]
          have hwf1 : Heap.wf h1 := by
            rw [hh1]
            exact Heap.wf_write _ pos _
              (Heap.wf_alloc h _ hwf) (Nat.lt_succ_of_lt hpc)
          have hchain1 : chainNodes h1 f cn.next_node = some restNs := by
            apply chainNodes_frame h h1 f cn.next_node restNs hrest
            intro p hp
            have hpN : p.1 < N := hlt p (List.mem_cons_of_mem _ hp)
            rw [hget1 p.1, if_neg (by omega), if_neg (by omega)]
          have hgna : h1.get h.ctr =
              some { value := cn.value, next_node := pn.next_node } := by
            rw [hget1, if_neg (by omega), if_pos rfl]
          obtain ⟨h2, pos2, tn2, ts2, hrun, hwf2, hctr2, hframe2, hgpos2,
              htnval, hchain2, hmap2, hbound2⟩ :=
            ih h1 cn.next_node h.ctr (s + 1) N restNs
              { value := cn.value, next_node := pn.next_node } hwf1 hchain1
              (fun p hp => hlt p (List.mem_cons_of_mem _ hp))
              (by omega) (by rw [h1ctr]; omega) hgna hnn
          rw [h1ctr] at hctr2
          refine ⟨h2, pos2, { value := pn.value, next_node := some h.ctr },
            (h.ctr, tn2) :: ts2, ?_, hwf2, by omega, ?_, ?_, rfl, ?_, ?_, ?_⟩
          · have harith : s + 1 + restNs.length =
                s + ((c, cn) :: restNs).length := by
              simp only [List.length_cons]
              omega
            rw [hstep, hrun, harith]
          · intro a ha hap
            rw [hframe2 a (by rw [h1ctr]; omega) (by omega),
              hget1, if_neg hap, if_neg (by omega)]
          · rw [hframe2 pos (by rw [h1ctr]; omega) (by omega),
              hget1, if_pos rfl]
          · show chainNodes h2 ((c, cn) :: restNs).length (some h.ctr) =
              some ((h.ctr, tn2) :: ts2)
            simp only [List.length_cons]
            rw [chainNodes]
            simp only [hgpos2, hchain2]
          · simp only [List.map_cons, htnval, hmap2]
          · intro p hp
            rcases List.mem_cons.mp hp with hp | hp
            · rw [hp]
              exact ⟨le_refl _, by omega⟩
            · have hb := hbound2 p hp
              rw [h1ctr] at hb
              exact ⟨by omega, by omega⟩

/-- C1: copy construction produces a list with the same values in the same
order and the same size as the source (so `copy == source` under
`operator==`), built entirely from freshly allocated nodes: the copy's nodes
(and sentinel) are disjoint from the source's, the source's chain is left
untouched by the construction, and writing to any address outside the
source's nodes — in particular to any of the copy's nodes — leaves the
source's traversal and sentinel unchanged. -/
theorem copy_ctor_deep_copies_independently (α : Type) [Inhabited α]
    [DecidableEq α] (h : Heap α) (A : HList) (fuel : Nat) (asn : HNode α)
    (ans : List (Nat × HNode α))
    (hwf : Heap.wf h)
    (hget : h.get A.sentinel = some asn)
    (hchain : chainNodes h fuel asn.next_node = some ans) :
    ∃ h5 B bsn,
      copyCtorH fuel h A = some (h5, B) ∧
      Heap.get h5 B.sentinel = some bsn ∧
      chainVals h5 fuel bsn.next_node = some (ans.map (fun p => p.2.value)) ∧
      B.size_ = A.size_ ∧
      listEqual (ans.map (fun p => p.2.value))
        (ans.map (fun p => p.2.value)) = true ∧
      Heap.get h5 A.sentinel = some asn ∧
      chainNodes h5 fuel asn.next_node = some ans ∧
      (∃ bns, chainNodes h5 fuel bsn.next_node = some bns ∧
        ∀ p ∈ bns, p.1 ∉ ans.map Prod.fst ∧ p.1 ≠ A.sentinel) ∧
      B.sentinel ∉ ans.map Prod.fst ∧
      B.sentinel ≠ A.sentinel ∧
      (∀ a n, a ∉ ans.map Prod.fst → a ≠ A.sentinel →
        Heap.get (Heap.write h5 a n) A.sentinel = some asn ∧
        chainVals (Heap.write h5 a n) fuel asn.next_node =
          some (ans.map (fun p => p.2.value))) := by
  have haddrs : ∀ p ∈ ans, p.1 < h.ctr :=
    chainNodes_addrs_lt h hwf fuel asn.next_node ans hchain
  have hsent : A.sentinel < h.ctr :=
    Heap.lt_ctr_of_get h A.sentinel asn hwf hget
  have hlenle : ans.length ≤ fuel :=
    chainNodes_length_le h fuel asn.next_node ans hchain
  have hget0 : ∀ x,
      (((h.alloc ({ value := default, next_node := none } : HNode α)).2.alloc
        { value := default, next_node := none }).2).get x =
      if x = h.ctr + 1 then
        some ({ value := default, next_node := none } : HNode α)
      else if x = h.ctr then
        some ({ value := default, next_node := none } : HNode α)
      else h.get x := by
    intro x
    rw [Heap.get_alloc, Heap.get_alloc]
    rfl
  have hwf0 : Heap.wf
      (((h.alloc ({ value := default, next_node := none } : HNode α)).2.alloc
        { value := default, next_node := none }).2) :=
    Heap.wf_alloc _ _ (Heap.wf_alloc h _ hwf)
  have hchain0 : chainNodes
      (((h.alloc ({ value := default, next_node := none } : HNode α)).2.alloc
        { value := default, next_node := none }).2) fuel asn.next_node =
      some ans := by
    apply chainNodes_frame h _ fuel asn.next_node ans hchain
    intro p hp
    rw [hget0 p.1, if_neg (by have := haddrs p hp; omega),
      if_neg (by have := haddrs p hp; omega)]
  obtain ⟨h3, pos2, tn, ts, hrun, hwf3, hctr3, hframe3, hgtemp, htnval,
      hchain3, hmap3, hbound3⟩ :=
    copyLoopH_spec fuel _ asn.next_node (h.ctr + 1) 0 h.ctr ans
      { value := default, next_node := none } hwf0 hchain0 haddrs
      (by omega) (by show h.ctr + 1 < h.ctr + 2; omega)
      (by rw [hget0, if_pos rfl]) rfl
  have hC : h.ctr + 2 ≤ h3.ctr := hctr3
  have hF : ∀ a, a < h.ctr + 2 → a ≠ h.ctr + 1 → h3.get a =
      (((h.alloc ({ value := default, next_node := none } : HNode α)).2.alloc
        { value := default, next_node := none }).2).get a := hframe3
  have hB : ∀ p ∈ ts, h.ctr + 2 ≤ p.1 ∧ p.1 < h3.ctr := hbound3
  have hpres3 : ∀ a, a < h.ctr → h3.get a = h.get a := by
    intro a ha
    rw [hF a (by omega) (by omega), hget0, if_neg (by omega),
      if_neg (by omega)]
  have hthis3 : h3.get h.ctr =
      some ({ value := default, next_node := none } : HNode α) := by
    rw [hF h.ctr (by omega) (by omega), hget0, if_neg (by omega), if_pos rfl]
  have hfinal : copyCtorH fuel h A =
      some (((h3.write h.ctr
          { value := default, next_node := tn.next_node }).write (h.ctr + 1)
          { value := tn.value, next_node := none }).free (h.ctr + 1),
        { sentinel := h.ctr, size_ := A.size_ }) := by
    simp only [copyCtorH, hget]
    rw [show ((h.alloc ({ value := default, next_node := none } : HNode α)).2.alloc
          { value := default, next_node := none }).1 = h.ctr + 1 from rfl,
      show (h.alloc ({ value := default, next_node := none } : HNode α)).1 =
        h.ctr from rfl]
    simp only [hrun, hthis3, hgtemp]
  set h5 : Heap α := ((h3.write h.ctr
      { value := default, next_node := tn.next_node }).write (h.ctr + 1)
      { value := tn.value, next_node := none }).free (h.ctr + 1) with hh5
  have hget5 : ∀ x, h5.get x =
      if x = h.ctr + 1 then none
      else if x = h.ctr then
        some { value := default, next_node := tn.next_node }
      else h3.get x := by
    intro x
    rw [hh5, Heap.get_free, Heap.get_write, Heap.get_write]
    by_cases hx1 : x = h.ctr + 1
    · simp only [if_pos hx1]
    · simp only [if_neg hx1]
  have hA5get : h5.get A.sentinel = some asn := by
    rw [hget5, if_neg (by omega), if_neg (by omega), hpres3 A.sentinel hsent]
    exact hget
  have hA5chain : chainNodes h5 fuel asn.next_node = some ans := by
    apply chainNodes_frame h h5 fuel asn.next_node ans hchain
    intro p hp
    rw [hget5 p.1, if_neg (by have := haddrs p hp; omega),
      if_neg (by have := haddrs p hp; omega), hpres3 p.1 (haddrs p hp)]
  have hchain5B : chainNodes h5 fuel tn.next_node = some ts := by
    apply chainNodes_fuel_mono h5 ans.length fuel tn.next_node ts hlenle
    apply chainNodes_frame h3 h5 ans.length tn.next_node ts hchain3
    intro p hp
    rw [hget5 p.1, if_neg (by have := hB p hp; omega),
      if_neg (by have := hB p hp; omega)]
  refine ⟨h5, { sentinel := h.ctr, size_ := A.size_ },
    { value := default, next_node := tn.next_node }, hfinal, ?_, ?_, rfl,
    listEqual_refl _, hA5get, hA5chain, ⟨ts, hchain5B, ?_⟩, ?_, ?_, ?_⟩
  · show h5.get h.ctr = _
    rw [hget5, if_neg (by omega), if_pos rfl]
  · show chainVals h5 fuel tn.next_node = _
    rw [chainVals, hchain5B, Option.map_some', hmap3]
  · intro p hp
    have hge := hB p hp
    constructor
    · intro hmem
      obtain ⟨q, hq, hqe⟩ := List.mem_map.mp hmem
      have := haddrs q hq
      omega
    · omega
  · show h.ctr ∉ ans.map Prod.fst
    intro hmem
    obtain ⟨q, hq, hqe⟩ := List.mem_map.mp hmem
    have := haddrs q hq
    omega
  · show h.ctr ≠ A.sentinel
    omega
  · intro a n hna hns
    have hchainW : chainNodes (h5.write a n) fuel asn.next_node = some ans := by
      apply chainNodes_frame h5 _ fuel asn.next_node ans hA5chain
      intro p hp
      have hpa : p.1 ≠ a := by
        intro hh
        exact hna (hh ▸ List.mem_map_of_mem Prod.fst hp)
      rw [Heap.get_write, if_neg hpa]
    constructor
    · rw [Heap.get_write, if_neg (fun hh => hns hh.symm)]
      exact hA5get
    · rw [chainVals, hchainW, Option.map_some']

/-- Witness for C1: copying the one-element list `[5]` (sentinel at address
0, node at address 1). -/
theorem copy_ctor_deep_copies_independently_witness :
    ∃ h5 B bsn,
      copyCtorH 3
        ({ mem := [(0, { value := 0, next_node := some 1 }),
                   (1, { value := 5, next_node := none })],
           ctr := 2 } : Heap Int)
        { sentinel := 0, size_ := 1 } = some (h5, B) ∧
      Heap.get h5 B.sentinel = some bsn ∧
      chainVals h5 3 bsn.next_node =
        some ([((1 : Nat), ({ value := 5, next_node := none } : HNode Int))].map
          (fun p => p.2.value)) ∧
      B.size_ = ({ sentinel := 0, size_ := 1 } : HList).size_ ∧
      listEqual
        ([((1 : Nat), ({ value := 5, next_node := none } : HNode Int))].map
          (fun p => p.2.value))
        ([((1 : Nat), ({ value := 5, next_node := none } : HNode Int))].map
          (fun p => p.2.value)) = true ∧
      Heap.get h5 ({ sentinel := 0, size_ := 1 } : HList).sentinel =
        some { value := 0, next_node := some 1 } ∧
      chainNodes h5 3
        ({ value := 0, next_node := some 1 } : HNode Int).next_node =
        some [((1 : Nat), ({ value := 5, next_node := none } : HNode Int))] ∧
      (∃ bns, chainNodes h5 3 bsn.next_node = some bns ∧
        ∀ p ∈ bns,
          p.1 ∉ [((1 : Nat), ({ value := 5, next_node := none } : HNode Int))].map
            Prod.fst ∧
          p.1 ≠ ({ sentinel := 0, size_ := 1 } : HList).sentinel) ∧
      B.sentinel ∉
        [((1 : Nat), ({ value := 5, next_node := none } : HNode Int))].map
          Prod.fst ∧
      B.sentinel ≠ ({ sentinel := 0, size_ := 1 } : HList).sentinel ∧
      (∀ a n,
        a ∉ [((1 : Nat), ({ value := 5, next_node := none } : HNode Int))].map
          Prod.fst →
        a ≠ ({ sentinel := 0, size_ := 1 } : HList).sentinel →
        Heap.get (Heap.write h5 a n)
          ({ sentinel := 0, size_ := 1 } : HList).sentinel =
          some { value := 0, next_node := some 1 } ∧
        chainVals (Heap.write h5 a n) 3
          ({ value := 0, next_node := some 1 } : HNode Int).next_node =
          some ([((1 : Nat), ({ value := 5, next_node := none } : HNode Int))].map
            (fun p => p.2.value))) :=
  copy_ctor_deep_copies_independently Int
    { mem := [(0, { value := 0, next_node := some 1 }),
              (1, { value := 5, next_node := none })], ctr := 2 }
    { sentinel := 0, size_ := 1 } 3 { value := 0, next_node := some 1 }
    [((1 : Nat), ({ value := 5, next_node := none } : HNode Int))]
    (by unfold Heap.wf; decide) (by decide) (by decide)
